import Mathlib

/-!
Shallow embedding of `scripts/fixPunctuation.js`, a linter that detects and
rewrites full-width (CJK) punctuation in text files.

Text is modelled as `List Char` (the relevant JavaScript strings contain only
basic-multilingual-plane characters, where one UTF-16 code unit is one
character, so JS string indices coincide with character indices).

The JS regular expressions are embedded by their literal semantics:
every rule of `PUNCTUATION_MAP` except the last is an alternation of
single characters, replaced characterwise; the last rule's source text
is an ellipsis character followed by a left brace, `1`, a comma, a space,
`2` and a right brace.  In JavaScript (non-unicode mode) that brace group
is not a valid quantifier, so the regex engine treats it as seven literal
characters; the rule therefore matches exactly that seven-character
sequence (`ellipsisPat` below).
-/

/-- Straight single quote, the replacement of the curly-single-quote rule. -/
def squote : Char := Char.ofNat 39

/-- Straight double quote, the replacement of the curly-double-quote rule. -/
def dquote : Char := Char.ofNat 34

/-- Characters matched by the rule for full-width comma and enumeration comma. -/
def commaP (c : Char) : Bool := c == '，' || c == '、'

/-- Characters matched by the ideographic-full-stop rule. -/
def periodP (c : Char) : Bool := c == '。'

/-- Characters matched by the full-width question mark rule. -/
def questionP (c : Char) : Bool := c == '？'

/-- Characters matched by the full-width colon rule. -/
def colonP (c : Char) : Bool := c == '：'

/-- Characters matched by the full-width semicolon rule. -/
def semiP (c : Char) : Bool := c == '；'

/-- Characters matched by the curly single quote rule. -/
def squoteP (c : Char) : Bool := c == '‘' || c == '’'

/-- Characters matched by the curly double quote rule. -/
def dquoteP (c : Char) : Bool := c == '“' || c == '”'

/-- Characters matched by the full-width opening parenthesis rule. -/
def lparenP (c : Char) : Bool := c == '（'

/-- Characters matched by the full-width closing parenthesis rule. -/
def rparenP (c : Char) : Bool := c == '）'

/-- Characters matched by the full-width opening bracket rule. -/
def lbrackP (c : Char) : Bool := c == '【'

/-- Characters matched by the full-width closing bracket rule. -/
def rbrackP (c : Char) : Bool := c == '】'

/-- Characters matched by the full-width opening angle bracket rule. -/
def langleP (c : Char) : Bool := c == '《'

/-- Characters matched by the full-width closing angle bracket rule. -/
def rangleP (c : Char) : Bool := c == '》'

/-- Union of the thirteen single-character rule alternatives: a character
matched by some rule of `PUNCTUATION_MAP` other than the ellipsis rule. -/
def punctChar (c : Char) : Bool :=
  commaP c || periodP c || questionP c || colonP c || semiP c || squoteP c ||
  dquoteP c || lparenP c || rparenP c || lbrackP c || rbrackP c || langleP c ||
  rangleP c

/-- The sixteen single characters recognised by the thirteen single-character
rules, in table order. -/
def punctList : List Char :=
  ['，', '、', '。', '？', '：', '；', '‘', '’', '“', '”',
   '（', '）', '【', '】', '《', '》']

/-- The literal character sequence matched by the ellipsis rule `…` followed by
a left brace, `1`, a comma, a space, `2`, a right brace (the braces written
here with escape codes). -/
def ellipsisPat : List Char := ['…', '\x7b', '1', ',', ' ', '2', '\x7d']

/-- Replacement pass of the ellipsis rule: every occurrence of `ellipsisPat`
is replaced by three ASCII dots, scanning left to right as the JS global
regex replace does. -/
def replaceEllipsis : List Char → List Char
  | [] => []
  | '…' :: '\x7b' :: '1' :: ',' :: ' ' :: '2' :: '\x7d' :: rest =>
      '.' :: '.' :: '.' :: replaceEllipsis rest
  | c :: cs => c :: replaceEllipsis cs

/-- One entry of `PUNCTUATION_MAP`: either a single-character alternation with
its replacement character, or the ellipsis rule. -/
inductive Rule where
  | chars (p : Char → Bool) (repl : Char)
  | ellipsis

/-- Apply one rule's global replace to the whole text (`result.replace(k, v)`
in the source loop). -/
def applyRule (l : List Char) (r : Rule) : List Char :=
  match r with
  | .chars p repl => l.map (fun c => if p c then repl else c)
  | .ellipsis => replaceEllipsis l

/-- The ordered rule table of the script (`PUNCTUATION_MAP`). -/
def PUNCTUATION_MAP : List Rule :=
  [.chars commaP ',', .chars periodP '.', .chars questionP '?',
   .chars colonP ':', .chars semiP ';', .chars squoteP squote,
   .chars dquoteP dquote, .chars lparenP '(', .chars rparenP ')',
   .chars lbrackP '[', .chars rbrackP ']', .chars langleP '<',
   .chars rangleP '>', .ellipsis]

/-- `fixPunctuation(content)`: fold every rule of the table, in listed order,
over the running result. -/
def fixPunctuation (content : List Char) : List Char :=
  PUNCTUATION_MAP.foldl applyRule content

/-- Existence scan of a pattern that is the alternation of the
single-character alternatives `pc` and the literal sequence `ellipsisPat`:
true iff a match starts at some position. -/
def scanTest (pc : Char → Bool) : List Char → Bool
  | [] => false
  | '…' :: '\x7b' :: '1' :: ',' :: ' ' :: '2' :: '\x7d' :: _ => true
  | c :: cs => pc c || scanTest pc cs

/-- `CHECKER_PATTERN.test(text)`: whether some rule's matcher occurs somewhere
in the text.  The checker pattern is the alternation of all rule sources; at
any given position at most one alternative can match (the single characters
are pairwise distinct and none of them is the ellipsis character that starts
`ellipsisPat`), so the alternation order of the JS regex is immaterial. -/
def checkerTest (l : List Char) : Bool :=
  scanTest punctChar l

/-- Scan of `text.matchAll(globalPattern)` for the same alternation pattern,
started at absolute index `i`: the list of `(index, length)` of every match,
in ascending position order.  A match of length `n` advances the scan by `n`
characters, as the JS regex `lastIndex` does; there are no empty matches. -/
def scanMatches (pc : Char → Bool) : Nat → List Char → List (Nat × Nat)
  | _, [] => []
  | i, '…' :: '\x7b' :: '1' :: ',' :: ' ' :: '2' :: '\x7d' :: rest =>
      (i, 7) :: scanMatches pc (i + 7) rest
  | i, c :: cs =>
      if pc c then (i, 1) :: scanMatches pc (i + 1) cs
      else scanMatches pc (i + 1) cs

/-- All matches `(index, length)` of the checker pattern over the whole text. -/
def checkerMatches (text : List Char) : List (Nat × Nat) :=
  scanMatches punctChar 0 text

/-- JS `String.prototype.split('\n')`: the newline-separated segments of the
text, always at least one (possibly empty) segment. -/
def splitNl : List Char → List (List Char)
  | [] => [[]]
  | c :: cs =>
      if c = '\n' then [] :: splitNl cs
      else (c :: (splitNl cs).headD []) :: (splitNl cs).tail

/-- JS `lines.at(-1)` for the (always nonempty) result of a split. -/
def lastSeg (ls : List (List Char)) : List Char :=
  ls.getLastD []

/-- `coordinatesOfChars(CHECKER_PATTERN, text)`: for every match of the
checker pattern, the triple of the reported line number, column number and
matched character, computed exactly as in the source: the text up to and
including the match's start index is split on newlines; the line number is
the number of segments, the column number is the length of the last segment
plus one, and the character is the one at the match's start index. -/
def coordinatesOfChars (text : List Char) : List (Nat × Nat × Char) :=
  (checkerMatches text).map (fun m =>
    let lines := splitNl (text.take (m.1 + 1))
    (lines.length, (lastSeg lines).length + 1, text.getD m.1 ' '))

/-- Aggregate state of the `iterateFiles` loop.  `outFiles` records the
content of every processed file after the loop touched it (the on-disk
content: rewritten in fix mode when the checker matched, untouched
otherwise); `diags` records, per errored file in detection mode, the
coordinate list that was printed. -/
structure RunState where
  outFiles : List (List Char)
  fixedFileCount : Nat
  errFlag : Bool
  errFileCount : Nat
  errCount : Nat
  diags : List (List (Nat × Nat × Char))
deriving Repr, DecidableEq

/-- Loop state before any file is processed. -/
def initState : RunState :=
  { outFiles := [], fixedFileCount := 0, errFlag := false,
    errFileCount := 0, errCount := 0, diags := [] }

/-- Body of the `for` loop of `iterateFiles` for one file's content. -/
def processFile (fix : Bool) (st : RunState) (content : List Char) : RunState :=
  if checkerTest content = false then
    { st with outFiles := st.outFiles ++ [content] }
  else if fix then
    { st with outFiles := st.outFiles ++ [fixPunctuation content],
              fixedFileCount := st.fixedFileCount + 1 }
  else
    { st with outFiles := st.outFiles ++ [content],
              errFlag := true,
              errFileCount := st.errFileCount + 1,
              errCount := st.errCount + (coordinatesOfChars content).length,
              diags := st.diags ++ [coordinatesOfChars content] }

/-- `iterateFiles(paths, fixPunctuation, fix)`, with the file system modelled
as the list of the files' contents. -/
def iterateFiles (files : List (List Char)) (fix : Bool) : RunState :=
  files.foldl (processFile fix) initState

/-- Whether the run terminates with a non-zero status: the source calls
`exit(1)` exactly when it is not in fix mode and the error flag was set. -/
def runExitsNonzero (files : List (List Char)) (fix : Bool) : Bool :=
  !fix && (iterateFiles files fix).errFlag

/-- Number of matches of the ellipsis rule's own global scan over the text. -/
def countEllipsis : List Char → Nat
  | [] => 0
  | '…' :: '\x7b' :: '1' :: ',' :: ' ' :: '2' :: '\x7d' :: rest =>
      countEllipsis rest + 1
  | _ :: cs => countEllipsis cs

/-- Number of matches found by scanning the text with one rule's matcher
alone: the count of matching characters for a single-character rule, and the
count of pattern occurrences for the ellipsis rule. -/
def ruleCount (r : Rule) (l : List Char) : Nat :=
  match r with
  | .chars p _ => l.countP p
  | .ellipsis => countEllipsis l

/-- Characterwise effect of the thirteen single-character rules applied in
table order (the innermost function is the first rule). -/
def normChar : Char → Char :=
  (fun c => if rangleP c then '>' else c) ∘
  (fun c => if langleP c then '<' else c) ∘
  (fun c => if rbrackP c then ']' else c) ∘
  (fun c => if lbrackP c then '[' else c) ∘
  (fun c => if rparenP c then ')' else c) ∘
  (fun c => if lparenP c then '(' else c) ∘
  (fun c => if dquoteP c then dquote else c) ∘
  (fun c => if squoteP c then squote else c) ∘
  (fun c => if semiP c then ';' else c) ∘
  (fun c => if colonP c then ':' else c) ∘
  (fun c => if questionP c then '?' else c) ∘
  (fun c => if periodP c then '.' else c) ∘
  (fun c => if commaP c then ',' else c)

/-- Specification-side 1-based line number of position `i` in `t`: one more
than the number of newline characters strictly before `i`. -/
def lineOf (t : List Char) (i : Nat) : Nat :=
  (t.take i).count '\n' + 1

/-- Specification-side 1-based column of position `i` in `t`: one more than
the number of characters between the last newline before `i` and `i`. -/
def colOf (t : List Char) (i : Nat) : Nat :=
  ((t.take i).reverse.takeWhile (fun a => a != '\n')).length + 1

theorem splitNl_ne_nil (l : List Char) : splitNl l ≠ [] := by
  cases l with
  | nil => simp [splitNl]
  | cons c cs =>
      simp only [splitNl]
      split <;> simp

theorem lastSeg_cons (x : List Char) (r : List (List Char)) (h : r ≠ []) :
    lastSeg (x :: r) = lastSeg r := by
  cases r with
  | nil => exact absurd rfl h
  | cons y ys => simp [lastSeg, List.getLastD_cons]

theorem lastSeg_singleton (x : List Char) : lastSeg [x] = x := rfl

theorem splitNl_length (l : List Char) :
    (splitNl l).length = l.count '\n' + 1 := by
  induction l with
  | nil => simp [splitNl]
  | cons c cs ih =>
      simp only [splitNl]
      by_cases h : c = '\n'
      · simp [h, ih, List.count_cons]
      · have hne := splitNl_ne_nil cs
        cases hcs : splitNl cs with
        | nil => exact absurd hcs hne
        | cons y ys =>
            simp only [if_neg h, hcs, List.length_cons] at ih ⊢
            simp [List.count_cons, h, ← ih]

theorem splitNl_append_notNl (l : List Char) (c : Char) (hc : c ≠ '\n') :
    (splitNl (l ++ [c])).length = (splitNl l).length ∧
      lastSeg (splitNl (l ++ [c])) = lastSeg (splitNl l) ++ [c] := by
  induction l with
  | nil => simp [splitNl, hc, lastSeg]
  | cons a l' ih =>
      obtain ⟨ihl, ihs⟩ := ih
      simp only [List.cons_append, splitNl]
      by_cases ha : a = '\n'
      · rw [if_pos ha, if_pos ha]
        refine ⟨by simp [ihl], ?_⟩
        rw [lastSeg_cons _ _ (splitNl_ne_nil _), lastSeg_cons _ _ (splitNl_ne_nil _)]
        exact ihs
      · rw [if_neg ha, if_neg ha]
        cases hlc : splitNl (l' ++ [c]) with
        | nil => exact absurd hlc (splitNl_ne_nil _)
        | cons z zs =>
            cases hl' : splitNl l' with
            | nil => exact absurd hl' (splitNl_ne_nil _)
            | cons y ys =>
                rw [hlc, hl'] at ihl ihs
                simp only [List.length_cons, Nat.add_right_cancel_iff] at ihl
                simp only [List.headD_cons, List.tail_cons, List.length_cons]
                refine ⟨by omega, ?_⟩
                cases zs with
                | nil =>
                    cases ys with
                    | nil =>
                        simp only [lastSeg_singleton] at ihs ⊢
                        simp [ihs]
                    | cons w ws => simp at ihl
                | cons z' zs' =>
                    cases ys with
                    | nil => simp at ihl
                    | cons w ws =>
                        rw [lastSeg_cons (a :: z) (z' :: zs') (by simp),
                          lastSeg_cons (a :: y) (w :: ws) (by simp)]
                        rw [lastSeg_cons z (z' :: zs') (by simp),
                          lastSeg_cons y (w :: ws) (by simp)] at ihs
                        exact ihs

theorem splitNl_append_newline (l : List Char) :
    splitNl (l ++ ['\n']) = splitNl l ++ [[]] := by
  induction l with
  | nil => simp [splitNl]
  | cons a l' ih =>
      simp only [List.cons_append, splitNl, List.append_eq]
      by_cases ha : a = '\n'
      · rw [if_pos ha, if_pos ha, ih]
        rfl
      · rw [if_neg ha, if_neg ha, ih]
        cases hl' : splitNl l' with
        | nil => exact absurd hl' (splitNl_ne_nil _)
        | cons y ys => simp [hl']

theorem not_ellipsis_prefix_of_shape (c : Char) (cs : List Char)
    (h : ∀ rest, c = '…' → cs = '\x7b' :: '1' :: ',' :: ' ' :: '2' :: '\x7d' :: rest → False) :
    ¬ ellipsisPat <+: (c :: cs) := by
  rintro ⟨t, ht⟩
  simp only [ellipsisPat, List.cons_append, List.nil_append, List.cons.injEq] at ht
  obtain ⟨h1, h2⟩ := ht
  exact h t h1.symm h2.symm

theorem ellipsis_prefix_shape (c : Char) (cs : List Char)
    (h : ellipsisPat <+: (c :: cs)) :
    ∃ rest, c :: cs = ellipsisPat ++ rest := by
  obtain ⟨t, ht⟩ := h
  exact ⟨t, ht.symm⟩

theorem replaceEllipsis_ell_eq (rest : List Char) :
    replaceEllipsis (ellipsisPat ++ rest) = '.' :: '.' :: '.' :: replaceEllipsis rest := rfl

theorem replaceEllipsis_cons_eq (c : Char) (cs : List Char)
    (h : ¬ ellipsisPat <+: (c :: cs)) :
    replaceEllipsis (c :: cs) = c :: replaceEllipsis cs := by
  rw [replaceEllipsis.eq_def]
  split
  · rename_i heq; exact absurd heq (by simp)
  · rename_i rest heq
    refine absurd ?_ h
    rw [heq]
    exact ⟨rest, rfl⟩
  · rename_i c' cs' hshape heq
    injection heq with e1 e2
    subst e1
    subst e2
    rfl

theorem scanTest_ell_eq (pc : Char → Bool) (rest : List Char) :
    scanTest pc (ellipsisPat ++ rest) = true := rfl

theorem scanTest_cons_eq (pc : Char → Bool) (c : Char) (cs : List Char)
    (h : ¬ ellipsisPat <+: (c :: cs)) :
    scanTest pc (c :: cs) = (pc c || scanTest pc cs) := by
  conv_lhs => rw [scanTest.eq_def]
  split
  · rename_i heq; exact absurd heq (by simp)
  · rename_i rest heq
    refine absurd ?_ h
    rw [heq]
    exact ⟨rest, rfl⟩
  · rename_i c' cs' hshape heq
    injection heq with e1 e2
    subst e1
    subst e2
    rfl

theorem countEllipsis_ell_eq (rest : List Char) :
    countEllipsis (ellipsisPat ++ rest) = countEllipsis rest + 1 := rfl

theorem countEllipsis_cons_eq (c : Char) (cs : List Char)
    (h : ¬ ellipsisPat <+: (c :: cs)) :
    countEllipsis (c :: cs) = countEllipsis cs := by
  rw [countEllipsis.eq_def]
  split
  · rename_i heq; exact absurd heq (by simp)
  · rename_i rest heq
    refine absurd ?_ h
    rw [heq]
    exact ⟨rest, rfl⟩
  · rename_i c' cs' hshape heq
    injection heq with e1 e2
    subst e1
    subst e2
    rfl

theorem scanMatches_ell_eq (pc : Char → Bool) (i : Nat) (rest : List Char) :
    scanMatches pc i (ellipsisPat ++ rest) =
      (i, 7) :: scanMatches pc (i + 7) rest := rfl

theorem scanMatches_cons_eq (pc : Char → Bool) (i : Nat) (c : Char)
    (cs : List Char) (h : ¬ ellipsisPat <+: (c :: cs)) :
    scanMatches pc i (c :: cs) =
      if pc c then (i, 1) :: scanMatches pc (i + 1) cs
      else scanMatches pc (i + 1) cs := by
  conv_lhs => rw [scanMatches.eq_def]
  split
  · rename_i heq; exact absurd heq (by simp)
  · rename_i rest heq
    refine absurd ?_ h
    rw [heq]
    exact ⟨rest, rfl⟩
  · rename_i c' cs' hshape heq
    injection heq with e1 e2
    subst e1
    subst e2
    rfl

theorem scanTest_iff (pc : Char → Bool) (l : List Char) :
    scanTest pc l = true ↔ (∃ c ∈ l, pc c = true) ∨ ellipsisPat <:+: l := by
  induction l using scanTest.induct pc with
  | case1 =>
      simp only [scanTest]
      simp [ellipsisPat]
  | case2 rest =>
      rw [show ('…' :: '\x7b' :: '1' :: ',' :: ' ' :: '2' :: '\x7d' :: rest)
          = ellipsisPat ++ rest from rfl, scanTest_ell_eq]
      simp only [true_iff]
      exact Or.inr ((ellipsisPat.prefix_append rest).isInfix)
  | case3 c cs hshape ih =>
      have hnp := not_ellipsis_prefix_of_shape c cs hshape
      rw [scanTest_cons_eq pc c cs hnp]
      have hinf : (ellipsisPat <:+: c :: cs) ↔ (ellipsisPat <:+: cs) := by
        rw [List.infix_cons_iff]
        simp [hnp]
      simp only [Bool.or_eq_true, ih, List.mem_cons, hinf]
      constructor
      · rintro (h1 | h2 | h3)
        · exact Or.inl ⟨c, Or.inl rfl, h1⟩
        · obtain ⟨a, ha, hpa⟩ := h2
          exact Or.inl ⟨a, Or.inr ha, hpa⟩
        · exact Or.inr h3
      · rintro (⟨a, ha | ha, hpa⟩ | h3)
        · subst ha; exact Or.inl hpa
        · exact Or.inr (Or.inl ⟨a, ha, hpa⟩)
        · exact Or.inr (Or.inr h3)

theorem scanMatches_nil_iff (pc : Char → Bool) (i : Nat) (l : List Char) :
    scanMatches pc i l = [] ↔ scanTest pc l = false := by
  induction l using scanTest.induct pc generalizing i with
  | case1 => simp [scanMatches, scanTest]
  | case2 rest =>
      rw [show ('…' :: '\x7b' :: '1' :: ',' :: ' ' :: '2' :: '\x7d' :: rest)
          = ellipsisPat ++ rest from rfl, scanMatches_ell_eq, scanTest_ell_eq]
      simp
  | case3 c cs hshape ih =>
      have hnp := not_ellipsis_prefix_of_shape c cs hshape
      rw [scanMatches_cons_eq pc i c cs hnp, scanTest_cons_eq pc c cs hnp]
      by_cases hc : pc c = true
      · simp [hc]
      · simp only [Bool.not_eq_true] at hc
        simp [hc, ih]

theorem scanMatches_length (pc : Char → Bool) (i : Nat) (l : List Char)
    (hpat : ∀ a ∈ ellipsisPat, pc a = false) :
    (scanMatches pc i l).length = l.countP pc + countEllipsis l := by
  induction i, l using scanMatches.induct pc with
  | case1 i => simp [scanMatches, countEllipsis]
  | case2 i rest ih =>
      rw [show ('…' :: '\x7b' :: '1' :: ',' :: ' ' :: '2' :: '\x7d' :: rest)
          = ellipsisPat ++ rest from rfl, scanMatches_ell_eq, countEllipsis_ell_eq,
        List.countP_append]
      have hz : ellipsisPat.countP pc = 0 := by
        rw [List.countP_eq_zero]
        intro a ha
        simp [hpat a ha]
      simp only [List.length_cons, ih, hz]
      omega
  | case3 i c cs hshape hc ih =>
      have hnp := not_ellipsis_prefix_of_shape c cs hshape
      rw [scanMatches_cons_eq pc i c cs hnp, countEllipsis_cons_eq c cs hnp,
        List.countP_cons, if_pos hc, if_pos hc]
      simp only [List.length_cons, ih]
      omega
  | case4 i c cs hshape hc ih =>
      have hnp := not_ellipsis_prefix_of_shape c cs hshape
      rw [scanMatches_cons_eq pc i c cs hnp, countEllipsis_cons_eq c cs hnp,
        List.countP_cons, if_neg hc, if_neg hc]
      simp only [ih]
      omega

theorem scanMatches_spec (pc : Char → Bool) (j : Nat) (l : List Char)
    (i n : Nat) (hmem : (i, n) ∈ scanMatches pc j l) :
    ∃ k c cs, i = j + k ∧ l.drop k = c :: cs ∧
      ((pc c = true ∧ n = 1) ∨
        (ellipsisPat <+: l.drop k ∧ c = '…' ∧ n = 7)) := by
  induction j, l using scanMatches.induct pc with
  | case1 j => simp [scanMatches] at hmem
  | case2 j rest ih =>
      rw [show ('…' :: '\x7b' :: '1' :: ',' :: ' ' :: '2' :: '\x7d' :: rest)
          = ellipsisPat ++ rest from rfl, scanMatches_ell_eq] at hmem
      rcases List.mem_cons.1 hmem with hm | hm
      · injection hm with hi hn
        refine ⟨0, '…', '\x7b' :: '1' :: ',' :: ' ' :: '2' :: '\x7d' :: rest,
          by omega, rfl, Or.inr ⟨⟨rest, rfl⟩, rfl, hn⟩⟩
      · obtain ⟨k, c, cs, hik, hdrop, hrest⟩ := ih hm
        have hdd : List.drop (7 + k)
            ('…' :: '\x7b' :: '1' :: ',' :: ' ' :: '2' :: '\x7d' :: rest)
            = List.drop k rest := by
          rw [← List.drop_drop]
          rfl
        refine ⟨7 + k, c, cs, by omega, ?_, ?_⟩
        · rw [hdd]; exact hdrop
        · rw [hdd]; exact hrest
  | case3 j c cs hshape hc ih =>
      have hnp := not_ellipsis_prefix_of_shape c cs hshape
      rw [scanMatches_cons_eq pc j c cs hnp, if_pos hc] at hmem
      rcases List.mem_cons.1 hmem with hm | hm
      · injection hm with hi hn
        exact ⟨0, c, cs, by omega, rfl, Or.inl ⟨hc, hn⟩⟩
      · obtain ⟨k, c', cs', hik, hdrop, hrest⟩ := ih hm
        exact ⟨k + 1, c', cs', by omega, hdrop, hrest⟩
  | case4 j c cs hshape hc ih =>
      have hnp := not_ellipsis_prefix_of_shape c cs hshape
      rw [scanMatches_cons_eq pc j c cs hnp, if_neg hc] at hmem
      obtain ⟨k, c', cs', hik, hdrop, hrest⟩ := ih hmem
      exact ⟨k + 1, c', cs', by omega, hdrop, hrest⟩

theorem lastSeg_splitNl_length (l : List Char) :
    (lastSeg (splitNl l)).length =
      (l.reverse.takeWhile (fun a => a != '\n')).length := by
  induction l using List.reverseRecOn with
  | nil => simp [splitNl, lastSeg]
  | append_singleton l' c ih =>
      by_cases hc : c = '\n'
      · subst hc
        rw [splitNl_append_newline]
        simp [lastSeg, List.getLastD_concat]
      · rw [(splitNl_append_notNl l' c hc).2]
        simp [hc, ih]

theorem punctChar_iff_mem (c : Char) :
    punctChar c = true ↔ c ∈ punctList := by
  simp only [punctChar, commaP, periodP, questionP, colonP, semiP, squoteP,
    dquoteP, lparenP, rparenP, lbrackP, rbrackP, langleP, rangleP, punctList,
    Bool.or_eq_true, beq_iff_eq, List.mem_cons, List.not_mem_nil, or_false]
  tauto

theorem punctChar_not_newline (c : Char) (h : punctChar c = true) : c ≠ '\n' := by
  have hmem := (punctChar_iff_mem c).1 h
  have key : ∀ a ∈ punctList, a ≠ '\n' := by decide
  exact key c hmem

theorem punctChar_not_ellipsisChar (c : Char) (h : punctChar c = true) :
    c ≠ '…' := by
  have hmem := (punctChar_iff_mem c).1 h
  have key : ∀ a ∈ punctList, a ≠ '…' := by decide
  exact key c hmem

theorem mem_replaceEllipsis (c : Char) (l : List Char)
    (h : c ∈ replaceEllipsis l) : c ∈ l ∨ c = '.' := by
  induction l using replaceEllipsis.induct with
  | case1 => simp [replaceEllipsis] at h
  | case2 rest ih =>
      rw [show ('…' :: '\x7b' :: '1' :: ',' :: ' ' :: '2' :: '\x7d' :: rest)
          = ellipsisPat ++ rest from rfl, replaceEllipsis_ell_eq] at h
      rcases List.mem_cons.1 h with h1 | h1
      · exact Or.inr h1
      rcases List.mem_cons.1 h1 with h2 | h2
      · exact Or.inr h2
      rcases List.mem_cons.1 h2 with h3 | h3
      · exact Or.inr h3
      rcases ih h3 with h4 | h4
      · exact Or.inl (by
          rw [show ('…' :: '\x7b' :: '1' :: ',' :: ' ' :: '2' :: '\x7d' :: rest)
            = ellipsisPat ++ rest from rfl]
          exact List.mem_append_right _ h4)
      · exact Or.inr h4
  | case3 c' cs hshape ih =>
      rw [replaceEllipsis_cons_eq c' cs (not_ellipsis_prefix_of_shape c' cs hshape)] at h
      rcases List.mem_cons.1 h with h1 | h1
      · exact Or.inl (h1 ▸ List.mem_cons_self c' cs)
      rcases ih h1 with h2 | h2
      · exact Or.inl (List.mem_cons_of_mem c' h2)
      · exact Or.inr h2

theorem prefix_transfer_replaceEllipsis (l : List Char) :
    ∀ u : List Char, (∀ a ∈ u, a ≠ '…' ∧ a ≠ '.') →
      u <+: replaceEllipsis l → u <+: l := by
  induction l using replaceEllipsis.induct with
  | case1 =>
      intro u hu hpre
      simpa [replaceEllipsis] using hpre
  | case2 rest ih =>
      intro u hu hpre
      rw [show ('…' :: '\x7b' :: '1' :: ',' :: ' ' :: '2' :: '\x7d' :: rest)
          = ellipsisPat ++ rest from rfl, replaceEllipsis_ell_eq] at hpre
      cases u with
      | nil => exact List.nil_prefix
      | cons a u' =>
          rw [List.cons_prefix_cons] at hpre
          exact absurd hpre.1 (hu a (List.mem_cons_self a u')).2
  | case3 c' cs hshape ih =>
      intro u hu hpre
      rw [replaceEllipsis_cons_eq c' cs (not_ellipsis_prefix_of_shape c' cs hshape)] at hpre
      cases u with
      | nil => exact List.nil_prefix
      | cons a u' =>
          rw [List.cons_prefix_cons] at hpre ⊢
          refine ⟨hpre.1, ?_⟩
          exact ih u' (fun a ha => hu a (List.mem_cons_of_mem _ ha)) hpre.2

theorem not_infix_replaceEllipsis (l : List Char) :
    ¬ ellipsisPat <:+: replaceEllipsis l := by
  induction l using replaceEllipsis.induct with
  | case1 =>
      simp [replaceEllipsis, ellipsisPat]
  | case2 rest ih =>
      rw [show ('…' :: '\x7b' :: '1' :: ',' :: ' ' :: '2' :: '\x7d' :: rest)
          = ellipsisPat ++ rest from rfl, replaceEllipsis_ell_eq]
      intro hinf
      rcases List.infix_cons_iff.1 hinf with hp | hinf
      · rw [show ellipsisPat = '…' :: ('\x7b' :: '1' :: ',' :: ' ' :: '2' :: '\x7d' :: []) from rfl,
          List.cons_prefix_cons] at hp
        exact absurd hp.1 (by decide)
      rcases List.infix_cons_iff.1 hinf with hp | hinf
      · rw [show ellipsisPat = '…' :: ('\x7b' :: '1' :: ',' :: ' ' :: '2' :: '\x7d' :: []) from rfl,
          List.cons_prefix_cons] at hp
        exact absurd hp.1 (by decide)
      rcases List.infix_cons_iff.1 hinf with hp | hinf
      · rw [show ellipsisPat = '…' :: ('\x7b' :: '1' :: ',' :: ' ' :: '2' :: '\x7d' :: []) from rfl,
          List.cons_prefix_cons] at hp
        exact absurd hp.1 (by decide)
      · exact ih hinf
  | case3 c' cs hshape ih =>
      have hnp := not_ellipsis_prefix_of_shape c' cs hshape
      rw [replaceEllipsis_cons_eq c' cs hnp]
      intro hinf
      rcases List.infix_cons_iff.1 hinf with hp | hinf
      · rw [show ellipsisPat = '…' :: ('\x7b' :: '1' :: ',' :: ' ' :: '2' :: '\x7d' :: []) from rfl,
          List.cons_prefix_cons] at hp
        obtain ⟨hc, htail⟩ := hp
        have htail' : ('\x7b' :: '1' :: ',' :: ' ' :: '2' :: '\x7d' :: []) <+: cs :=
          prefix_transfer_replaceEllipsis cs _ (by decide) htail
        refine hnp ?_
        rw [show ellipsisPat = '…' :: ('\x7b' :: '1' :: ',' :: ' ' :: '2' :: '\x7d' :: []) from rfl,
          List.cons_prefix_cons]
        exact ⟨hc, htail'⟩
      · exact ih hinf

theorem replaceEllipsis_id (l : List Char) (h : ¬ ellipsisPat <:+: l) :
    replaceEllipsis l = l := by
  induction l using replaceEllipsis.induct with
  | case1 => rfl
  | case2 rest ih =>
      exact absurd ((List.prefix_append ellipsisPat rest).isInfix) h
  | case3 c' cs hshape ih =>
      rw [replaceEllipsis_cons_eq c' cs (not_ellipsis_prefix_of_shape c' cs hshape)]
      rw [ih (fun hinf => h (List.infix_cons hinf))]

theorem normChar_of_not_punct (c : Char) (h : punctChar c = false) :
    normChar c = c := by
  simp only [punctChar, Bool.or_eq_false_iff] at h
  obtain ⟨⟨⟨⟨⟨⟨⟨⟨⟨⟨⟨⟨h1, h2⟩, h3⟩, h4⟩, h5⟩, h6⟩, h7⟩, h8⟩, h9⟩, h10⟩,
    h11⟩, h12⟩, h13⟩ := h
  simp [normChar, h1, h2, h3, h4, h5, h6, h7, h8, h9, h10, h11, h12, h13]

theorem punctChar_normChar (c : Char) : punctChar (normChar c) = false := by
  by_cases h : punctChar c = true
  · have hmem := (punctChar_iff_mem c).1 h
    have key : ∀ a ∈ punctList, punctChar (normChar a) = false := by decide
    exact key c hmem
  · simp only [Bool.not_eq_true] at h
    rw [normChar_of_not_punct c h]
    exact h

theorem fixPunctuation_eq (l : List Char) :
    fixPunctuation l = replaceEllipsis (l.map normChar) := by
  simp only [fixPunctuation, PUNCTUATION_MAP, applyRule, List.foldl_cons,
    List.foldl_nil, List.map_map]
  rfl

theorem punct_free_fixPunctuation (l : List Char) (c : Char)
    (h : c ∈ fixPunctuation l) : punctChar c = false := by
  rw [fixPunctuation_eq] at h
  rcases mem_replaceEllipsis c _ h with h1 | h1
  · obtain ⟨a, ha, rfl⟩ := List.mem_map.1 h1
    exact punctChar_normChar a
  · subst h1
    decide

theorem not_infix_fixPunctuation (l : List Char) :
    ¬ ellipsisPat <:+: fixPunctuation l := by
  rw [fixPunctuation_eq]
  exact not_infix_replaceEllipsis _

theorem map_normChar_id (l : List Char) (h : ∀ c ∈ l, punctChar c = false) :
    l.map normChar = l := by
  rw [show l.map normChar = l.map id from
    List.map_congr_left (fun a ha => normChar_of_not_punct a (h a ha)),
    List.map_id]

theorem fixPunctuation_id (l : List Char) (hpunct : ∀ c ∈ l, punctChar c = false)
    (hell : ¬ ellipsisPat <:+: l) : fixPunctuation l = l := by
  rw [fixPunctuation_eq, map_normChar_id l hpunct, replaceEllipsis_id l hell]

theorem processFile_clean (fix : Bool) (st : RunState) (content : List Char)
    (h : checkerTest content = false) :
    processFile fix st content = { st with outFiles := st.outFiles ++ [content] } := by
  simp [processFile, h]

theorem processFile_fixes (st : RunState) (content : List Char)
    (h : checkerTest content = true) :
    processFile true st content =
      { st with outFiles := st.outFiles ++ [fixPunctuation content],
                fixedFileCount := st.fixedFileCount + 1 } := by
  simp [processFile, h]

theorem processFile_errors (st : RunState) (content : List Char)
    (h : checkerTest content = true) :
    processFile false st content =
      { st with outFiles := st.outFiles ++ [content],
                errFlag := true,
                errFileCount := st.errFileCount + 1,
                errCount := st.errCount + (coordinatesOfChars content).length,
                diags := st.diags ++ [coordinatesOfChars content] } := by
  simp [processFile, h]

theorem foldl_detect (fs : List (List Char)) (st : RunState) :
    (fs.foldl (processFile false) st).errFlag
        = (st.errFlag || fs.any (fun f => checkerTest f)) ∧
      (fs.foldl (processFile false) st).errFileCount
        = st.errFileCount + fs.countP (fun f => checkerTest f) ∧
      (fs.foldl (processFile false) st).errCount
        = st.errCount +
            (fs.map (fun f =>
              if checkerTest f then (coordinatesOfChars f).length else 0)).sum ∧
      (fs.foldl (processFile false) st).outFiles = st.outFiles ++ fs ∧
      (fs.foldl (processFile false) st).diags
        = st.diags ++ (fs.filter (fun f => checkerTest f)).map coordinatesOfChars ∧
      (fs.foldl (processFile false) st).fixedFileCount = st.fixedFileCount := by
  induction fs generalizing st with
  | nil => simp
  | cons f fs' ih =>
      rw [List.foldl_cons]
      obtain ⟨e1, e2, e3, e4, e5, e6⟩ := ih (processFile false st f)
      by_cases h : checkerTest f = true
      · rw [processFile_errors st f h] at e1 e2 e3 e4 e5 e6 ⊢
        refine ⟨?_, ?_, ?_, ?_, ?_, ?_⟩
        · rw [e1]; simp [h]
        · rw [e2]; simp [h, List.countP_cons]; omega
        · rw [e3]; simp [h]; omega
        · rw [e4]; simp
        · rw [e5]; simp [h]
        · rw [e6]
      · simp only [Bool.not_eq_true] at h
        rw [processFile_clean false st f h] at e1 e2 e3 e4 e5 e6 ⊢
        refine ⟨?_, ?_, ?_, ?_, ?_, ?_⟩
        · rw [e1]; simp [h]
        · rw [e2]; simp [h, List.countP_cons]
        · rw [e3]; simp [h]
        · rw [e4]; simp
        · rw [e5]; simp [h]
        · rw [e6]

theorem foldl_fix (fs : List (List Char)) (st : RunState) :
    (fs.foldl (processFile true) st).outFiles
        = st.outFiles ++
            fs.map (fun f => if checkerTest f then fixPunctuation f else f) ∧
      (fs.foldl (processFile true) st).errFlag = st.errFlag ∧
      (fs.foldl (processFile true) st).errFileCount = st.errFileCount ∧
      (fs.foldl (processFile true) st).errCount = st.errCount ∧
      (fs.foldl (processFile true) st).diags = st.diags ∧
      (fs.foldl (processFile true) st).fixedFileCount
        = st.fixedFileCount + fs.countP (fun f => checkerTest f) := by
  induction fs generalizing st with
  | nil => simp
  | cons f fs' ih =>
      rw [List.foldl_cons]
      obtain ⟨e1, e2, e3, e4, e5, e6⟩ := ih (processFile true st f)
      by_cases h : checkerTest f = true
      · rw [processFile_fixes st f h] at e1 e2 e3 e4 e5 e6 ⊢
        refine ⟨?_, ?_, ?_, ?_, ?_, ?_⟩
        · rw [e1]; simp [h]
        · rw [e2]
        · rw [e3]
        · rw [e4]
        · rw [e5]
        · rw [e6]; simp [h, List.countP_cons]; omega
      · simp only [Bool.not_eq_true] at h
        rw [processFile_clean true st f h] at e1 e2 e3 e4 e5 e6 ⊢
        refine ⟨?_, ?_, ?_, ?_, ?_, ?_⟩
        · rw [e1]; simp [h]
        · rw [e2]
        · rw [e3]
        · rw [e4]
        · rw [e5]
        · rw [e6]; simp [h, List.countP_cons]

theorem getElem?_of_drop_eq (l : List Char) (k : Nat) (c : Char)
    (cs : List Char) (h : l.drop k = c :: cs) : l[k]? = some c := by
  induction k generalizing l with
  | zero =>
      rw [List.drop_zero] at h
      subst h
      simp
  | succ k' ih =>
      cases l with
      | nil => simp at h
      | cons a l' =>
          rw [List.drop_succ_cons] at h
          rw [List.getElem?_cons_succ]
          exact ih l' h

theorem match_head (t : List Char) (i n : Nat)
    (hmem : (i, n) ∈ checkerMatches t) :
    ∃ c, t[i]? = some c ∧ c ≠ '\n' ∧ t.getD i ' ' = c := by
  obtain ⟨k, c, cs, hik, hdrop, hcase⟩ :=
    scanMatches_spec punctChar 0 t i n hmem
  have hk : i = k := by omega
  subst hk
  have hget : t[i]? = some c := getElem?_of_drop_eq t i c cs hdrop
  refine ⟨c, hget, ?_, by simp [hget]⟩
  rcases hcase with ⟨hp, -⟩ | ⟨-, hc, -⟩
  · exact punctChar_not_newline c hp
  · subst hc
    decide

theorem coordinate_eq (t : List Char) (i n : Nat)
    (hmem : (i, n) ∈ checkerMatches t) :
    (splitNl (t.take (i + 1))).length = lineOf t i ∧
      (lastSeg (splitNl (t.take (i + 1)))).length = colOf t i := by
  obtain ⟨c, hget, hne, -⟩ := match_head t i n hmem
  have htake : t.take (i + 1) = t.take i ++ [c] := by
    rw [List.take_succ, hget]
    rfl
  constructor
  · rw [htake, (splitNl_append_notNl (t.take i) c hne).1, splitNl_length]
    rfl
  · rw [htake, (splitNl_append_notNl (t.take i) c hne).2]
    simp only [List.length_append, List.length_cons, List.length_nil]
    rw [lastSeg_splitNl_length]
    rfl

theorem pointwise_count (c : Char) :
    (if punctChar c = true then (1 : Nat) else 0) =
      (if commaP c = true then (1 : Nat) else 0) +
      (if periodP c = true then (1 : Nat) else 0) +
      (if questionP c = true then (1 : Nat) else 0) +
      (if colonP c = true then (1 : Nat) else 0) +
      (if semiP c = true then (1 : Nat) else 0) +
      (if squoteP c = true then (1 : Nat) else 0) +
      (if dquoteP c = true then (1 : Nat) else 0) +
      (if lparenP c = true then (1 : Nat) else 0) +
      (if rparenP c = true then (1 : Nat) else 0) +
      (if lbrackP c = true then (1 : Nat) else 0) +
      (if rbrackP c = true then (1 : Nat) else 0) +
      (if langleP c = true then (1 : Nat) else 0) +
      (if rangleP c = true then (1 : Nat) else 0) := by
  by_cases h : punctChar c = true
  · have hmem := (punctChar_iff_mem c).1 h
    have key : ∀ a ∈ punctList,
        (if punctChar a = true then (1 : Nat) else 0) =
          (if commaP a = true then (1 : Nat) else 0) +
          (if periodP a = true then (1 : Nat) else 0) +
          (if questionP a = true then (1 : Nat) else 0) +
          (if colonP a = true then (1 : Nat) else 0) +
          (if semiP a = true then (1 : Nat) else 0) +
          (if squoteP a = true then (1 : Nat) else 0) +
          (if dquoteP a = true then (1 : Nat) else 0) +
          (if lparenP a = true then (1 : Nat) else 0) +
          (if rparenP a = true then (1 : Nat) else 0) +
          (if lbrackP a = true then (1 : Nat) else 0) +
          (if rbrackP a = true then (1 : Nat) else 0) +
          (if langleP a = true then (1 : Nat) else 0) +
          (if rangleP a = true then (1 : Nat) else 0) := by decide
    exact key c hmem
  · simp only [Bool.not_eq_true] at h
    have h' := h
    simp only [punctChar, Bool.or_eq_false_iff] at h'
    obtain ⟨⟨⟨⟨⟨⟨⟨⟨⟨⟨⟨⟨h1, h2⟩, h3⟩, h4⟩, h5⟩, h6⟩, h7⟩, h8⟩, h9⟩, h10⟩,
      h11⟩, h12⟩, h13⟩ := h'
    simp [h, h1, h2, h3, h4, h5, h6, h7, h8, h9, h10, h11, h12, h13]

theorem countP_punctChar (t : List Char) :
    t.countP punctChar =
      t.countP commaP + t.countP periodP + t.countP questionP +
      t.countP colonP + t.countP semiP + t.countP squoteP +
      t.countP dquoteP + t.countP lparenP + t.countP rparenP +
      t.countP lbrackP + t.countP rbrackP + t.countP langleP +
      t.countP rangleP := by
  induction t with
  | nil => simp
  | cons c t' ih =>
      simp only [List.countP_cons]
      have hp := pointwise_count c
      omega

theorem coords_pos (f : List Char) (h : checkerTest f = true) :
    1 ≤ (coordinatesOfChars f).length := by
  have hne : ¬ scanMatches punctChar 0 f = [] := by
    rw [scanMatches_nil_iff]
    rw [checkerTest] at h
    simp [h]
  have := List.length_pos.2 hne
  simp only [coordinatesOfChars, List.length_map, checkerMatches]
  omega

theorem count_le_sum (fs : List (List Char)) :
    fs.countP (fun f => checkerTest f) ≤
      (fs.map (fun f =>
        if checkerTest f then (coordinatesOfChars f).length else 0)).sum := by
  induction fs with
  | nil => simp
  | cons f fs' ih =>
      simp only [List.countP_cons, List.map_cons, List.sum_cons]
      by_cases h : checkerTest f = true
      · have := coords_pos f h
        simp only [h, if_true]
        omega
      · simp only [Bool.not_eq_true] at h
        simp only [h, Bool.false_eq_true, if_false]
        omega

theorem sum_pos_iff_any (fs : List (List Char)) :
    (0 < (fs.map (fun f =>
        if checkerTest f then (coordinatesOfChars f).length else 0)).sum) ↔
      fs.any (fun f => checkerTest f) = true := by
  induction fs with
  | nil => simp
  | cons f fs' ih =>
      simp only [List.map_cons, List.sum_cons, List.any_cons, Bool.or_eq_true]
      by_cases h : checkerTest f = true
      · have := coords_pos f h
        simp only [h, if_true, true_or, iff_true]
        omega
      · simp only [Bool.not_eq_true] at h
        simp only [h, Bool.false_eq_true, if_false, false_or, Nat.zero_add]
        exact ih

/-- C1 (counterexample): the claim says a match at the very first character
of the text is reported at line 1 column 1, and a match right after a newline
at column 1 of its line; on the one-character text consisting of a full-width
comma the code reports line 1 column 2, and on the text `a`, newline,
full-width comma it reports line 2 column 2. -/
theorem claim1_counterexample :
    coordinatesOfChars ['，'] = [(1, 2, '，')] ∧
      coordinatesOfChars ['a', '\n', '，'] = [(2, 2, '，')] ∧
      ¬ coordinatesOfChars ['，'] = [(1, 1, '，')] := by
  refine ⟨by decide, by decide, by decide⟩

/-- C1 (amended): for every input text, every coordinate reported by
locate-matches carries the 1-based line number of the match position, but
the reported column is ONE MORE than the 1-based character offset of the
match within its line (`colOf`); in particular a match at the very first
character is reported at line 1 column 2, and a match at the first character
after a newline at column 2 of its line. -/
theorem claim1_coordinates (t : List Char) :
    List.Forall₂ (fun m coord =>
        coord = (lineOf t m.1, colOf t m.1 + 1, t.getD m.1 ' '))
      (checkerMatches t) (coordinatesOfChars t) := by
  rw [coordinatesOfChars]
  refine List.forall₂_map_right_iff.2 (List.forall₂_same.2 ?_)
  rintro ⟨i, n⟩ hm
  obtain ⟨hlen, hcol⟩ := coordinate_eq t i n hm
  dsimp only
  rw [hlen, hcol]

/-- C2 (counterexample): on the input `He said`, curly open double quote,
`hi`, curly close double quote, horizontal ellipsis, the code produces the
straight DOUBLE quote (not the single quote the claim expects) and leaves
the ellipsis character unchanged (its rule matches only the literal
seven-character sequence `ellipsisPat`), so the output differs from the
claimed `He said 'hi'...`. -/
theorem claim2_counterexample :
    fixPunctuation ("He said ".toList ++ ['“'] ++ "hi".toList ++ ['”'] ++ ['…'])
        = "He said ".toList ++ [dquote] ++ "hi".toList ++ [dquote] ++ ['…'] ∧
      ¬ ("He said ".toList ++ [dquote] ++ "hi".toList ++ [dquote] ++ ['…'])
        = "He said ".toList ++ [squote] ++ "hi".toList ++ [squote] ++ "...".toList := by
  refine ⟨by decide, by decide⟩

/-- C2 (amended): applying fixes to `He said`, curly open double quote, `hi`,
curly close double quote, horizontal ellipsis replaces the two curly double
quotes by straight double quotes and leaves the single ellipsis character
unchanged, because the ellipsis rule's matcher is the literal sequence
`ellipsisPat` and not the bare ellipsis glyph. -/
theorem claim2_fix_output :
    fixPunctuation ("He said ".toList ++ ['“'] ++ "hi".toList ++ ['”'] ++ ['…'])
      = "He said ".toList ++ [dquote] ++ "hi".toList ++ [dquote] ++ ['…'] := by
  decide

/-- C3: applying fixes twice in succession yields the same string as applying
them once: after one full pass no single-character rule's character remains
and no occurrence of the ellipsis rule's literal matcher remains or can be
recreated, so the second pass is the identity. -/
theorem claim3_idempotent (t : List Char) :
    fixPunctuation (fixPunctuation t) = fixPunctuation t := by
  have h1 : (fixPunctuation t).map normChar = fixPunctuation t :=
    map_normChar_id _ (fun c hc => punct_free_fixPunctuation t c hc)
  rw [fixPunctuation_eq (fixPunctuation t), h1,
    replaceEllipsis_id _ (not_infix_fixPunctuation t)]

/-- C4: on a text containing no occurrence of any rule's matcher (no
single-character alternative and no occurrence of the ellipsis rule's
literal sequence), the existence test is false, applying fixes returns the
text unchanged, and locate-matches returns no coordinates. -/
theorem claim4_no_match (t : List Char)
    (hpunct : ∀ c ∈ t, punctChar c = false)
    (hell : ¬ ellipsisPat <:+: t) :
    checkerTest t = false ∧ fixPunctuation t = t ∧
      coordinatesOfChars t = [] := by
  have htest : checkerTest t = false := by
    rw [checkerTest]
    cases h : scanTest punctChar t with
    | false => rfl
    | true =>
        rcases (scanTest_iff punctChar t).1 h with ⟨c, hc, hpc⟩ | hinf
        · rw [hpunct c hc] at hpc
          exact absurd hpc (by simp)
        · exact absurd hinf hell
  refine ⟨htest, fixPunctuation_id t hpunct hell, ?_⟩
  have hm : scanMatches punctChar 0 t = [] := by
    rw [scanMatches_nil_iff]
    rw [checkerTest] at htest
    exact htest
  simp [coordinatesOfChars, checkerMatches, hm]

/-- C4 (witness): the hypotheses and the conclusion of `claim4_no_match`
evaluated at the concrete clean text `a`, newline, `b`. -/
theorem claim4_witness :
    checkerTest ['a', '\n', 'b'] = false ∧
      fixPunctuation ['a', '\n', 'b'] = ['a', '\n', 'b'] ∧
      coordinatesOfChars ['a', '\n', 'b'] = [] :=
  claim4_no_match ['a', '\n', 'b'] (by decide) (by decide)

/-- C5: for every text, the number of coordinates reported by locate-matches
(the scan with the combined union matcher) equals the sum over all rules of
the number of matches found by scanning the text with that rule's matcher
alone (a character count for each single-character rule, an occurrence count
of the literal sequence for the ellipsis rule). -/
theorem claim5_count (t : List Char) :
    (coordinatesOfChars t).length =
      (PUNCTUATION_MAP.map (fun r => ruleCount r t)).sum := by
  have h1 : (coordinatesOfChars t).length = (checkerMatches t).length := by
    simp [coordinatesOfChars]
  have h2 := scanMatches_length punctChar 0 t (by decide)
  have h3 := countP_punctChar t
  rw [h1]
  rw [checkerMatches, h2]
  simp only [PUNCTUATION_MAP, ruleCount, List.map_cons, List.map_nil,
    List.sum_cons, List.sum_nil]
  omega

/-- C6: over any list of file contents, the detection-mode run terminates
with success exactly when no file had any match; the failure status is
derived from the aggregate flag after the whole list is processed, and the
recorded diagnostics contain an entry for every matching file (fail-at-end);
a fix-mode run always terminates with success. -/
theorem claim6_exit (fs : List (List Char)) :
    (runExitsNonzero fs false = false ↔ ∀ f ∈ fs, checkerTest f = false) ∧
      runExitsNonzero fs true = false ∧
      (iterateFiles fs false).diags.length
        = (fs.filter (fun f => checkerTest f)).length := by
  obtain ⟨e1, e2, e3, e4, e5, e6⟩ := foldl_detect fs initState
  refine ⟨?_, ?_, ?_⟩
  · rw [runExitsNonzero, iterateFiles, e1]
    simp [initState, List.any_eq_false]
  · rw [runExitsNonzero]
    simp
  · rw [iterateFiles, e5]
    simp [initState]

/-- C6 (witness): `claim6_exit` evaluated at a concrete two-file list, one
clean file and one file containing a full-width comma. -/
theorem claim6_witness :
    runExitsNonzero [['a'], ['，']] true = false :=
  (claim6_exit [['a'], ['，']]).2.1

/-- C7: in fix mode every file whose content contains some rule's matcher
(a single-character alternative or the literal ellipsis sequence) is
rewritten with apply-fixes applied to the whole content, every other file is
left untouched, and in detection mode no file content is modified at all. -/
theorem claim7_frame (fs : List (List Char)) :
    (iterateFiles fs true).outFiles
        = fs.map (fun f =>
            if (∃ c ∈ f, punctChar c = true) ∨ ellipsisPat <:+: f
            then fixPunctuation f else f) ∧
      (iterateFiles fs false).outFiles = fs := by
  obtain ⟨f1, f2, f3, f4, f5, f6⟩ := foldl_fix fs initState
  obtain ⟨e1, e2, e3, e4, e5, e6⟩ := foldl_detect fs initState
  refine ⟨?_, ?_⟩
  · rw [iterateFiles, f1]
    simp only [initState, List.nil_append]
    refine List.map_congr_left (fun f hf => ?_)
    have hiff : checkerTest f = true ↔
        (∃ c ∈ f, punctChar c = true) ∨ ellipsisPat <:+: f :=
      scanTest_iff punctChar f
    exact if_congr hiff rfl rfl
  · rw [iterateFiles, e4]
    simp [initState]

/-- C7 (witness): `claim7_frame` evaluated at a concrete two-file list: the
matching file is rewritten, the clean file and detection mode leave contents
unchanged. -/
theorem claim7_witness :
    (iterateFiles [['a'], ['，']] false).outFiles = [['a'], ['，']] :=
  (claim7_frame [['a'], ['，']]).2

/-- C8: applying fixes to the text `ni hao` (two CJK ideographs), full-width
comma, `shi jie` (two CJK ideographs), ideographic full stop yields exactly
the same ideographs with ASCII comma and ASCII period substituted; every
non-punctuation character is preserved unchanged. -/
theorem claim8_cjk :
    fixPunctuation "你好，世界。".toList = "你好,世界.".toList := by
  decide

/-- C9: for every text, locate-matches produces exactly one coordinate per
match of the combined pattern, and the character field of each coordinate is
exactly the character at the match's starting index; in particular the
seven-character ellipsis-rule match starting at index 1 of the text `a`
followed by `ellipsisPat` produces the single coordinate with the ellipsis
character, not one coordinate per matched character. -/
theorem claim9_matched_char (t : List Char) :
    List.Forall₂ (fun m coord => coord.2.2 = t.getD m.1 ' ')
        (checkerMatches t) (coordinatesOfChars t) ∧
      checkerMatches ('a' :: ellipsisPat) = [(1, 7)] ∧
      coordinatesOfChars ('a' :: ellipsisPat) = [(1, 3, '…')] := by
  refine ⟨?_, by decide, by decide⟩
  rw [coordinatesOfChars]
  refine List.forall₂_map_right_iff.2 (List.forall₂_same.2 ?_)
  rintro ⟨i, n⟩ hm
  rfl

/-- C10: in detection mode, every file on which the checker pattern tests
true yields at least one coordinate; consequently over any file list the
total error count is at least the errored-file count, and the run signals a
non-zero status exactly when the total error count is positive. -/
theorem claim10_invariant (fs : List (List Char)) :
    (∀ f, checkerTest f = true → 1 ≤ (coordinatesOfChars f).length) ∧
      (iterateFiles fs false).errFileCount ≤ (iterateFiles fs false).errCount ∧
      (runExitsNonzero fs false = true ↔
        0 < (iterateFiles fs false).errCount) := by
  obtain ⟨e1, e2, e3, e4, e5, e6⟩ := foldl_detect fs initState
  refine ⟨fun f => coords_pos f, ?_, ?_⟩
  · rw [iterateFiles, e2, e3]
    have := count_le_sum fs
    simp only [initState]
    omega
  · rw [runExitsNonzero, iterateFiles, e1, e3]
    simp only [initState, Bool.false_or, Bool.not_false, Bool.true_and,
      Nat.zero_add]
    exact (sum_pos_iff_any fs).symm

/-- C10 (witness): the per-file part of `claim10_invariant` evaluated on the
one-character file containing a full-width comma. -/
theorem claim10_witness :
    1 ≤ (coordinatesOfChars ['，']).length :=
  (claim10_invariant []).1 ['，'] (by decide)
